import Mathlib

/-!
Verification development for the run-time orchestration core of the Grandine
consensus-layer node.  The embedded code comes from three source files:

* `p2p/src/beacon_committee_subscriptions.rs` — the subnet subscription tracker
  (`BeaconCommitteeSubscriptions` with `update`, `discard_old_subscriptions`, `all`);
* `http_api_utils/src/error.rs` — the API-boundary error classifier
  (`Error::format_sources`, `Error::status_code`, `IntoResponse for Error`);
* `http_api/src/context.rs` — the startup sequence `Context::try_run_case`
  (payload-status notification loop, extra-block ingestion loop, tick selection,
  and the final `select_biased!` supervision race).

`std::collections::BTreeMap` with `u64` keys is embedded as an association list
kept sorted by strictly increasing key; machine integers (`Epoch`, `ValidatorIndex`,
`CommitteeIndex`, slots) are embedded as `Nat` (the Rust code performs no
arithmetic on them that could overflow: only division, comparison and map keying).
-/

namespace Grandine

/-! ### Sorted association lists: the embedding of `BTreeMap` -/

/-- Keys are strictly increasing: the ordering invariant of a `BTreeMap`
snapshotted as a list of key–value pairs. -/
def AssocSorted {α : Type} (l : List (Nat × α)) : Prop :=
  l.Pairwise (fun a b => a.1 < b.1)

/-- `BTreeMap::get`: the value stored at key `k`, if any. -/
def lookupKV {α : Type} (k : Nat) : List (Nat × α) → Option α
  | [] => none
  | (k1, v1) :: rest => if k = k1 then some v1 else lookupKV k rest

/-- `BTreeMap::insert`: store `v` at key `k`, replacing an existing entry with
that key and otherwise keeping the list sorted. -/
def insertKV {α : Type} (k : Nat) (v : α) : List (Nat × α) → List (Nat × α)
  | [] => [(k, v)]
  | (k1, v1) :: rest =>
    if k < k1 then (k, v) :: (k1, v1) :: rest
    else if k = k1 then (k, v) :: rest
    else (k1, v1) :: insertKV k v rest

/-- `BTreeMap::split_off(&k)` as used in `discard_old_subscriptions`: the submap
of entries whose key is at or above `k` (on a key-sorted list this is exactly
the suffix the range split returns). -/
def splitOffKV {α : Type} (k : Nat) (l : List (Nat × α)) : List (Nat × α) :=
  l.filter (fun p => k ≤ p.1)

/-! ### The subnet subscription tracker (`p2p/src/beacon_committee_subscriptions.rs`) -/

/-- Modelled from the spec: the `BeaconCommitteeSubscription` record
(`p2p/src/misc.rs`, outside the given sources) — an immutable value
`\x7b slot, validator_index, committee_index, is_aggregator \x7d`. -/
structure BeaconCommitteeSubscription where
  slot : Nat
  validator_index : Nat
  committee_index : Nat
  is_aggregator : Bool
deriving DecidableEq, Repr

/-- Modelled from the spec: `misc::compute_epoch_at_slot::<P>`
(`helper_functions`, outside the given sources) — the chain's slot-to-epoch
mapping, integer division by the preset's slots-per-epoch constant.  The preset
`P` is abstracted as its slots-per-epoch value `spe`. -/
def compute_epoch_at_slot (spe slot : Nat) : Nat :=
  slot / spe

/-- The inner `type ValidatorCommitteeSubscriptions =
BTreeMap<CommitteeIndex, BeaconCommitteeSubscription>`. -/
abbrev ValidatorCommitteeSubscriptions :=
  List (Nat × BeaconCommitteeSubscription)

/-- The tracker state: `BTreeMap<Epoch, BTreeMap<ValidatorIndex,
ValidatorCommitteeSubscriptions>>` (the single private field `subscriptions`).
`Default` produces `⟨[]⟩`. -/
structure BeaconCommitteeSubscriptions where
  subscriptions : List (Nat × List (Nat × ValidatorCommitteeSubscriptions))
deriving DecidableEq, Repr

/-- `BeaconCommitteeSubscriptions::discard_old_subscriptions`:
`self.subscriptions = self.subscriptions.split_off(&epoch)`. -/
def BeaconCommitteeSubscriptions.discard_old_subscriptions
    (self : BeaconCommitteeSubscriptions) (epoch : Nat) :
    BeaconCommitteeSubscriptions :=
  ⟨splitOffKV epoch self.subscriptions⟩

/-- `BeaconCommitteeSubscriptions::all`: flatten values at every level, in map
order (`values().flat_map(values).flat_map(values).copied()`). -/
def BeaconCommitteeSubscriptions.all (self : BeaconCommitteeSubscriptions) :
    List BeaconCommitteeSubscription :=
  self.subscriptions.flatMap (fun p => p.2.flatMap (fun q => q.2.map Prod.snd))

/-- One iteration of the `for subscription in subscriptions` loop body of
`BeaconCommitteeSubscriptions::update`: compute the epoch from the slot, then
`entry(epoch).or_default().entry(validator_index).or_default()
.insert(committee_index, subscription)`. -/
def updateOne (spe : Nat) (self : BeaconCommitteeSubscriptions)
    (subscription : BeaconCommitteeSubscription) : BeaconCommitteeSubscriptions :=
  let epoch := compute_epoch_at_slot spe subscription.slot
  let inner := (lookupKV epoch self.subscriptions).getD []
  let inner2 := (lookupKV subscription.validator_index inner).getD []
  ⟨insertKV epoch
    (insertKV subscription.validator_index
      (insertKV subscription.committee_index subscription inner2) inner)
    self.subscriptions⟩

/-- `BeaconCommitteeSubscriptions::update`: fold the loop body over the batch in
iteration order. -/
def BeaconCommitteeSubscriptions.update (self : BeaconCommitteeSubscriptions)
    (spe : Nat) (batch : List BeaconCommitteeSubscription) :
    BeaconCommitteeSubscriptions :=
  batch.foldl (updateOne spe) self

/-- The subscription retained at map position `(epoch, validator_index,
committee_index)`, read through the three nested maps. -/
def retainedAt (self : BeaconCommitteeSubscriptions) (epoch vi ci : Nat) :
    Option BeaconCommitteeSubscription :=
  match lookupKV epoch self.subscriptions with
  | none => none
  | some m =>
    match lookupKV vi m with
    | none => none
    | some m2 => lookupKV ci m2

/-- The map key a subscription is stored under by `update`:
`(compute_epoch_at_slot(slot), validator_index, committee_index)`. -/
def keyOf (spe : Nat) (s : BeaconCommitteeSubscription) : Nat × Nat × Nat :=
  (compute_epoch_at_slot spe s.slot, s.validator_index, s.committee_index)

/-- The last subscription of a batch written at key `k`, in iteration order. -/
def lastWrite (spe : Nat) (k : Nat × Nat × Nat)
    (batch : List BeaconCommitteeSubscription) :
    Option BeaconCommitteeSubscription :=
  batch.foldl (fun acc s => if keyOf spe s = k then some s else acc) none

/-- Key agreement for one stored entry: the three map keys above it equal the
fields `update` derived them from. -/
def entryWF (spe e v c : Nat) (s : BeaconCommitteeSubscription) : Prop :=
  e = compute_epoch_at_slot spe s.slot ∧ v = s.validator_index ∧
    c = s.committee_index

/-- Well-formed innermost map under epoch key `e` and validator key `v`. -/
def committeeMapWF (spe e v : Nat) (m2 : ValidatorCommitteeSubscriptions) : Prop :=
  AssocSorted m2 ∧ ∀ p ∈ m2, entryWF spe e v p.1 p.2

/-- Well-formed middle map under epoch key `e`. -/
def validatorMapWF (spe e : Nat)
    (m : List (Nat × ValidatorCommitteeSubscriptions)) : Prop :=
  AssocSorted m ∧ ∀ p ∈ m, committeeMapWF spe e p.1 p.2

/-- The `BTreeMap` representation invariant together with key agreement: every
Rust value of the tracker satisfies it, because the field is private and only
`Default`, `update` and `discard_old_subscriptions` touch it. -/
def WF (spe : Nat) (self : BeaconCommitteeSubscriptions) : Prop :=
  AssocSorted self.subscriptions ∧
    ∀ p ∈ self.subscriptions, validatorMapWF spe p.1 p.2

/-- Tracker states reachable through the public interface: created empty
(`Default`), then mutated only by `update` and `discard_old_subscriptions`. -/
inductive Reachable (spe : Nat) : BeaconCommitteeSubscriptions → Prop
  | empty : Reachable spe ⟨[]⟩
  | step_update (st : BeaconCommitteeSubscriptions)
      (batch : List BeaconCommitteeSubscription) :
      Reachable spe st → Reachable spe (st.update spe batch)
  | step_discard (st : BeaconCommitteeSubscriptions) (epoch : Nat) :
      Reachable spe st → Reachable spe (st.discard_old_subscriptions epoch)

/-- Strict lexicographic order on `(epoch, validator_index, committee_index)`
triples: the iteration order of the nested `BTreeMap`s. -/
def tripleLt (a b : Nat × Nat × Nat) : Prop :=
  a.1 < b.1 ∨ (a.1 = b.1 ∧ (a.2.1 < b.2.1 ∨ (a.2.1 = b.2.1 ∧ a.2.2 < b.2.2)))

/-! ### The startup sequence of `Context::try_run_case` (`http_api/src/context.rs`) -/

/-- Execution block hashes, abstracted as naturals. -/
abbrev ExecutionBlockHash := Nat

/-- A signed beacon block, abstracted to the data the startup sequence reads:
its slot (for `Tick::block_proposal`) and an opaque body distinguishing
blocks. -/
structure Block where
  slot : Nat
  body : Nat
deriving DecidableEq, Repr

/-- `fork_choice_store::PayloadStatus`. -/
inductive PayloadStatus
  | valid
  | invalid
  | optimistic
deriving DecidableEq, Repr

/-- A call submitted to the fork-choice controller by the startup sequence.
`on_notified_invalid_payload` is always invoked with `None` as its second
argument in this sequence, so only the hash is recorded; `on_slot` is the
slot-advance command that the sequence deliberately avoids (see the comment
above the `tick` computation in `try_run_case`). -/
inductive ControllerCall
  | on_notified_valid_payload (hash : ExecutionBlockHash)
  | on_notified_invalid_payload (hash : ExecutionBlockHash)
  | on_requested_block (block : Block)
  | on_slot (slot : Nat)
deriving DecidableEq, Repr

/-- Whether a call is a payload-validity notification. -/
def isPayloadNotification : ControllerCall → Bool
  | .on_notified_valid_payload _ => true
  | .on_notified_invalid_payload _ => true
  | _ => false

/-- Whether a call is a block submission. -/
def isRequestedBlock : ControllerCall → Bool
  | .on_requested_block _ => true
  | _ => false

/-- Whether a call is the slot-advance command `Controller::on_slot`. -/
def isSlotAdvance : ControllerCall → Bool
  | .on_slot _ => true
  | _ => false

/-- Whether a call is a payload-validity notification for hash `h`. -/
def notifiesHash (h : ExecutionBlockHash) : ControllerCall → Bool
  | .on_notified_valid_payload h1 => h1 = h
  | .on_notified_invalid_payload h1 => h1 = h
  | _ => false

/-- The body of the `for (execution_block_hash, payload_status) in
payload_statuses` loop: `Valid` and `Invalid` produce the corresponding
notification; the `Optimistic` arm is `\x7b\x7d`, producing no call. -/
def payloadStatusCall (entry : ExecutionBlockHash × PayloadStatus) :
    Option ControllerCall :=
  match entry.2 with
  | .valid => some (.on_notified_valid_payload entry.1)
  | .invalid => some (.on_notified_invalid_payload entry.1)
  | .optimistic => none

/-- The calls issued by the payload-status loop, in program order. -/
def payloadStatusCalls
    (payload_statuses : List (ExecutionBlockHash × PayloadStatus)) :
    List ControllerCall :=
  payload_statuses.filterMap payloadStatusCall

/-- The controller calls issued by the startup sequence of `try_run_case`, in
program order: the whole payload-status loop runs before the
`for block in extra_blocks` loop of `on_requested_block` calls. -/
def startupCalls (payload_statuses : List (ExecutionBlockHash × PayloadStatus))
    (extra_blocks : List Block) : List ControllerCall :=
  payloadStatusCalls payload_statuses ++
    extra_blocks.map ControllerCall.on_requested_block

/-- The sub-slot phase of a tick; only the block-proposal phase is used by this
startup sequence. -/
inductive TickKind
  | blockProposal
deriving DecidableEq, Repr

/-- Modelled from the spec: `clock::Tick` (outside the given sources) — "a
monotonically non-decreasing time marker derived from a slot number and a
sub-slot phase". -/
structure Tick where
  slot : Nat
  kind : TickKind
deriving DecidableEq, Repr

/-- Modelled from the spec: `Tick::block_proposal` (`clock` crate, outside the
given sources) — the "block-proposal instant for slot N" tick of the given
block's slot. -/
def Tick.block_proposal (b : Block) : Tick :=
  ⟨b.slot, .blockProposal⟩

/-- The tick passed to `Controller::new` by `try_run_case`:
`extra_blocks.last().unwrap_or(&anchor_block).pipe(Tick::block_proposal)`. -/
def startupTick (extra_blocks : List Block) (anchor_block : Block) : Tick :=
  Tick.block_proposal (extra_blocks.getLast?.getD anchor_block)

/-! ### The supervision race of `try_run_case` -/

/-- The eight futures listed, in order, by the `select_biased!` block at the end
of `try_run_case`. -/
inductive RacerId
  | runHttpApi
  | joinMutator
  | executionService
  | blsToExecutionChangePoolService
  | livenessTracker
  | validatorTask
  | subnetServiceTask
  | submitRequests
deriving DecidableEq, Repr

/-- The racers in the order they appear in the `select_biased!` block;
`submitRequests` is the scripted request sequence `case.run(...)`. -/
def supervisorRacers : List RacerId :=
  [.runHttpApi, .joinMutator, .executionService, .blsToExecutionChangePoolService,
   .livenessTracker, .validatorTask, .subnetServiceTask, .submitRequests]

/-- Modelled from the spec: the semantics of the `futures::select_biased!` race
(the macro is an external crate) — the completion policy is
"first-completion-wins: the Supervisor races all running tasks and returns the
outcome of whichever resolves first — success or failure.  It does not wait for
the remainder; their futures are abandoned".  Each racer is abstracted by the
time at which its future resolves (`none` = never resolves); the fold keeps the
earliest resolver, preferring the earlier-listed racer on ties (the biased
polling order). -/
def selectStep (time : RacerId → Option Nat) (acc : Option (Nat × RacerId))
    (r : RacerId) : Option (Nat × RacerId) :=
  match time r with
  | none => acc
  | some t =>
    match acc with
    | none => some (t, r)
    | some (tw, w) => if t < tw then some (t, r) else some (tw, w)

def selectFirstCompletion (time : RacerId → Option Nat) (racers : List RacerId) :
    Option (Nat × RacerId) :=
  racers.foldl (selectStep time) none

/-- The `ServiceOutcome` the supervisor returns: the outcome of the winning
racer, or `none` if no racer ever resolves (the race never returns). -/
def superviseOutcome {α : Type} (time : RacerId → Option Nat)
    (outcome : RacerId → α) : Option α :=
  (selectFirstCompletion time supervisorRacers).map (fun p => outcome p.2)

/-! ### The API-boundary error classifier (`http_api_utils/src/error.rs`) -/

/-- A `std::error::Error` cause chain, abstracted to the display message at each
level: `link m c` is an error displaying `m` whose `source()` is `c`; `leaf m`
has no source.  An `anyhow::Error` wrapping such a chain presents the same
chain through `source()`. -/
inductive ErrorChain
  | leaf (message : String)
  | link (message : String) (cause : ErrorChain)
deriving DecidableEq, Repr

/-- The display messages along a chain, outermost first. -/
def ErrorChain.messages : ErrorChain → List String
  | .leaf m => [m]
  | .link m c => m :: c.messages

/-- Modelled from the spec: `Direction` (`http_api_utils/src/misc.rs`, outside
the given sources) — request|response, displayed as the corresponding word. -/
inductive Direction
  | request
  | response
deriving DecidableEq, Repr

/-- The display form of a `Direction`. -/
def Direction.display : Direction → String
  | .request => "request"
  | .response => "response"

/-- The API-boundary error enum: its single variant
`InvalidBody \x7b direction, uri, source \x7d`. -/
inductive Error
  | invalidBody (direction : Direction) (uri : String) (source : ErrorChain)
deriving DecidableEq, Repr

/-- The `thiserror`-generated `Display` for `Error`, from the attribute on
`InvalidBody`: `failed to read <direction> body for <uri>`. -/
def Error.displayMessage : Error → String
  | .invalidBody d u _ => "failed to read " ++ d.display ++ " body for " ++ u

/-- `Error::sources`: the iterator starts from `Some(self)` and each step
returns the previous error while stepping to its `source()`, so it yields
`self` first and then walks the cause chain until exhausted.  Recorded here as
the list of display messages it yields. -/
def Error.sourcesMessages : Error → List String
  | e@(.invalidBody _ _ src) => e.displayMessage :: src.messages

/-- `Itertools::format(": ")` as applied by `format_sources`: the items joined
by the fixed separator. -/
def joinSources : List String → String
  | [] => ""
  | [m] => m
  | m :: rest => m ++ ": " ++ joinSources rest

/-- `Error::format_sources`: `self.sources().format(": ")`. -/
def Error.format_sources (e : Error) : String :=
  joinSources e.sourcesMessages

/-- `Error::status_code`: `InvalidBody` maps to `StatusCode::BAD_REQUEST`
(numeric value 400); the match is exhaustive over the enum. -/
def Error.status_code : Error → Nat
  | .invalidBody _ _ _ => 400

/-- An HTTP response, abstracted to its status code (the conversion from a bare
`StatusCode` produces an empty body). -/
structure Response where
  status : Nat
deriving DecidableEq, Repr

/-- `IntoResponse for Error`: `self.status_code().into_response()` — a response
whose status is the mapped code. -/
def Error.into_response (e : Error) : Response :=
  ⟨e.status_code⟩

/-! ## Library lemmas about the `BTreeMap` embedding -/

theorem lookupKV_insertKV {α : Type} (k k' : Nat) (v : α) (l : List (Nat × α)) :
    lookupKV k' (insertKV k v l) = if k' = k then some v else lookupKV k' l := by
  induction l with
  | nil => simp [insertKV, lookupKV]
  | cons p rest ih =>
    obtain ⟨k1, v1⟩ := p
    by_cases h1 : k < k1
    · simp [insertKV, h1, lookupKV]
    · by_cases h2 : k = k1
      · subst h2
        by_cases hk : k' = k <;> simp [insertKV, h1, lookupKV, hk]
      · by_cases hk1 : k' = k1
        · have hne : k' ≠ k := by rintro rfl; exact h2 hk1
          have hne' : k1 ≠ k := fun hh => h2 hh.symm
          simp [insertKV, h1, h2, lookupKV, hk1, hne, hne']
        · simp [insertKV, h1, h2, lookupKV, hk1, ih]

theorem mem_insertKV {α : Type} {k : Nat} {v : α} {l : List (Nat × α)}
    {p : Nat × α} (hp : p ∈ insertKV k v l) : p = (k, v) ∨ p ∈ l := by
  induction l with
  | nil => simpa [insertKV] using hp
  | cons q rest ih =>
    obtain ⟨k1, v1⟩ := q
    by_cases h1 : k < k1
    · simp only [insertKV, if_pos h1, List.mem_cons] at hp
      rcases hp with rfl | rfl | hp
      · exact Or.inl rfl
      · exact Or.inr (List.mem_cons_self _ _)
      · exact Or.inr (List.mem_cons_of_mem _ hp)
    · by_cases h2 : k = k1
      · simp only [insertKV, if_neg h1, if_pos h2, List.mem_cons] at hp
        rcases hp with rfl | hp
        · exact Or.inl rfl
        · exact Or.inr (List.mem_cons_of_mem _ hp)
      · simp only [insertKV, if_neg h1, if_neg h2, List.mem_cons] at hp
        rcases hp with rfl | hp
        · exact Or.inr (List.mem_cons_self _ _)
        · rcases ih hp with h | h
          · exact Or.inl h
          · exact Or.inr (List.mem_cons_of_mem _ h)

theorem sorted_insertKV {α : Type} {k : Nat} {v : α} {l : List (Nat × α)}
    (hl : AssocSorted l) : AssocSorted (insertKV k v l) := by
  induction l with
  | nil => simp [insertKV, AssocSorted]
  | cons q rest ih =>
    obtain ⟨k1, v1⟩ := q
    rw [AssocSorted, List.pairwise_cons] at hl
    obtain ⟨hhead, hrest⟩ := hl
    by_cases h1 : k < k1
    · rw [AssocSorted]
      simp only [insertKV, if_pos h1]
      refine List.Pairwise.cons ?_ (List.Pairwise.cons hhead hrest)
      intro b hb
      rcases List.mem_cons.mp hb with rfl | hb
      · exact h1
      · exact h1.trans (hhead b hb)
    · by_cases h2 : k = k1
      · subst h2
        rw [AssocSorted]
        simp only [insertKV, if_neg h1, if_pos rfl]
        exact List.Pairwise.cons hhead hrest
      · have h3 : k1 < k := by omega
        rw [AssocSorted]
        simp only [insertKV, if_neg h1, if_neg h2]
        refine List.Pairwise.cons ?_ (ih hrest)
        intro b hb
        rcases mem_insertKV hb with rfl | hb
        · exact h3
        · exact hhead b hb

theorem lookupKV_mem {α : Type} {k : Nat} {v : α} {l : List (Nat × α)}
    (h : lookupKV k l = some v) : (k, v) ∈ l := by
  induction l with
  | nil => simp [lookupKV] at h
  | cons q rest ih =>
    obtain ⟨k1, v1⟩ := q
    rw [lookupKV] at h
    split at h
    · next hk =>
        injection h with hv
        subst hk
        subst hv
        exact List.mem_cons_self _ _
    · next hk =>
        exact List.mem_cons_of_mem _ (ih h)

theorem mem_lookupKV {α : Type} {k : Nat} {v : α} {l : List (Nat × α)}
    (hl : AssocSorted l) (h : (k, v) ∈ l) : lookupKV k l = some v := by
  induction l with
  | nil => simp at h
  | cons q rest ih =>
    obtain ⟨k1, v1⟩ := q
    rw [AssocSorted, List.pairwise_cons] at hl
    obtain ⟨hhead, hrest⟩ := hl
    rcases List.mem_cons.mp h with heq | hmem
    · obtain ⟨rfl, rfl⟩ := Prod.mk.injEq .. ▸ heq
      simp [lookupKV]
    · have hk : k1 < k := hhead (k, v) hmem
      have : k ≠ k1 := by omega
      simp only [lookupKV, if_neg this]
      exact ih hrest hmem

theorem lookupKV_splitOffKV {α : Type} (E k : Nat) (l : List (Nat × α)) :
    lookupKV k (splitOffKV E l) = if E ≤ k then lookupKV k l else none := by
  induction l with
  | nil => simp [splitOffKV, lookupKV]
  | cons q rest ih =>
    obtain ⟨k1, v1⟩ := q
    have hsplit : splitOffKV E ((k1, v1) :: rest)
        = if E ≤ k1 then (k1, v1) :: splitOffKV E rest else splitOffKV E rest := by
      simp [splitOffKV, List.filter_cons]
    rw [hsplit]
    by_cases hE : E ≤ k1
    · rw [if_pos hE, lookupKV]
      by_cases hk : k = k1
      · subst hk
        rw [if_pos rfl, if_pos hE, lookupKV, if_pos rfl]
      · rw [if_neg hk, ih]
        by_cases hEk : E ≤ k
        · rw [if_pos hEk, if_pos hEk, lookupKV, if_neg hk]
        · rw [if_neg hEk, if_neg hEk]
    · rw [if_neg hE, ih]
      by_cases hEk : E ≤ k
      · have hk : k ≠ k1 := fun hh => hE (hh ▸ hEk)
        rw [if_pos hEk, if_pos hEk, lookupKV, if_neg hk]
      · rw [if_neg hEk, if_neg hEk]

theorem sorted_splitOffKV {α : Type} {E : Nat} {l : List (Nat × α)}
    (hl : AssocSorted l) : AssocSorted (splitOffKV E l) :=
  List.Pairwise.sublist (List.filter_sublist l) hl

theorem mem_splitOffKV {α : Type} {E : Nat} {l : List (Nat × α)} {p : Nat × α} :
    p ∈ splitOffKV E l ↔ p ∈ l ∧ E ≤ p.1 := by
  simp [splitOffKV, List.mem_filter]

/-! ## Characterization of `update` through `retainedAt` -/

theorem retainedAt_updateOne (spe : Nat) (st : BeaconCommitteeSubscriptions)
    (s : BeaconCommitteeSubscription) (e v c : Nat) :
    retainedAt (updateOne spe st s) e v c =
      if keyOf spe s = (e, v, c) then some s else retainedAt st e v c := by
  rcases st with ⟨subs⟩
  by_cases hE : e = compute_epoch_at_slot spe s.slot
  · by_cases hV : v = s.validator_index
    · by_cases hC : c = s.committee_index
      · subst hE
        subst hV
        subst hC
        rw [if_pos (by simp [keyOf])]
        simp [updateOne, retainedAt, lookupKV_insertKV]
      · subst hE
        subst hV
        have hne : ¬ keyOf spe s =
            (compute_epoch_at_slot spe s.slot, s.validator_index, c) := by
          simp only [keyOf, Prod.mk.injEq]
          omega
        rw [if_neg hne]
        cases hm : lookupKV (compute_epoch_at_slot spe s.slot) subs with
        | none => simp [updateOne, retainedAt, lookupKV_insertKV, hC, hm, lookupKV]
        | some m =>
          cases hm2 : lookupKV s.validator_index m with
          | none => simp [updateOne, retainedAt, lookupKV_insertKV, hC, hm, hm2, lookupKV]
          | some m2 => simp [updateOne, retainedAt, lookupKV_insertKV, hC, hm, hm2]
    · subst hE
      have hne : ¬ keyOf spe s = (compute_epoch_at_slot spe s.slot, v, c) := by
        simp only [keyOf, Prod.mk.injEq]
        omega
      rw [if_neg hne]
      cases hm : lookupKV (compute_epoch_at_slot spe s.slot) subs with
      | none => simp [updateOne, retainedAt, lookupKV_insertKV, hV, hm, lookupKV]
      | some m => simp [updateOne, retainedAt, lookupKV_insertKV, hV, hm]
  · have hne : ¬ keyOf spe s = (e, v, c) := by
      simp only [keyOf, Prod.mk.injEq]
      omega
    rw [if_neg hne]
    simp [updateOne, retainedAt, lookupKV_insertKV, hE]

theorem foldl_lastWrite_some (spe : Nat) (k : Nat × Nat × Nat)
    (batch : List BeaconCommitteeSubscription)
    (a : Option BeaconCommitteeSubscription) :
    batch.foldl (fun acc s => if keyOf spe s = k then some s else acc) a =
      match lastWrite spe k batch with
      | some s => some s
      | none => a := by
  induction batch generalizing a with
  | nil => simp [lastWrite]
  | cons x rest ih =>
    rw [List.foldl_cons]
    rw [ih]
    have hR : lastWrite spe k (x :: rest) =
        match lastWrite spe k rest with
        | some s => some s
        | none => if keyOf spe x = k then some x else none := by
      show rest.foldl (fun acc s => if keyOf spe s = k then some s else acc)
          (if keyOf spe x = k then some x else none) = _
      rw [ih]
    rw [hR]
    cases hlw : lastWrite spe k rest <;>
      by_cases hx : keyOf spe x = k <;> simp [hlw, hx]

theorem lastWrite_cons (spe : Nat) (k : Nat × Nat × Nat)
    (x : BeaconCommitteeSubscription) (rest : List BeaconCommitteeSubscription) :
    lastWrite spe k (x :: rest) =
      match lastWrite spe k rest with
      | some s => some s
      | none => if keyOf spe x = k then some x else none := by
  show rest.foldl (fun acc s => if keyOf spe s = k then some s else acc)
      (if keyOf spe x = k then some x else none) = _
  rw [foldl_lastWrite_some]

/-- The observable effect of `update` on one map position: the last batch item
written at that key wins; positions the batch does not write are unchanged. -/
theorem retainedAt_update (spe : Nat) (st : BeaconCommitteeSubscriptions)
    (batch : List BeaconCommitteeSubscription) (e v c : Nat) :
    retainedAt (st.update spe batch) e v c =
      match lastWrite spe (e, v, c) batch with
      | some s => some s
      | none => retainedAt st e v c := by
  induction batch generalizing st with
  | nil => simp [BeaconCommitteeSubscriptions.update, lastWrite]
  | cons x rest ih =>
    have hu : st.update spe (x :: rest) = (updateOne spe st x).update spe rest := rfl
    rw [hu, ih, retainedAt_updateOne, lastWrite_cons]
    cases hlw : lastWrite spe (e, v, c) rest <;>
      by_cases hx : keyOf spe x = (e, v, c) <;> simp [hlw, hx]

theorem lastWrite_eq_none (spe : Nat) (k : Nat × Nat × Nat)
    {batch : List BeaconCommitteeSubscription}
    (h : ∀ s ∈ batch, keyOf spe s ≠ k) : lastWrite spe k batch = none := by
  induction batch with
  | nil => rfl
  | cons x rest ih =>
    rw [lastWrite_cons, ih (fun s hs => h s (List.mem_cons_of_mem _ hs))]
    rw [if_neg (h x (List.mem_cons_self _ _))]

theorem lastWrite_append (spe : Nat) (k : Nat × Nat × Nat)
    (b1 b2 : List BeaconCommitteeSubscription) :
    lastWrite spe k (b1 ++ b2) =
      match lastWrite spe k b2 with
      | some s => some s
      | none => lastWrite spe k b1 := by
  show (b1 ++ b2).foldl _ none = _
  rw [List.foldl_append]
  exact foldl_lastWrite_some spe k b2 (lastWrite spe k b1)

/-! ## Preservation of the representation invariant -/

theorem committeeMapWF_lookup (spe e v : Nat)
    {m : List (Nat × ValidatorCommitteeSubscriptions)}
    (hm : validatorMapWF spe e m) :
    committeeMapWF spe e v ((lookupKV v m).getD []) := by
  cases hv : lookupKV v m with
  | none => exact ⟨List.Pairwise.nil, by simp⟩
  | some m2 => simpa using hm.2 _ (lookupKV_mem hv)

theorem WF_updateOne (spe : Nat) {st : BeaconCommitteeSubscriptions}
    (s : BeaconCommitteeSubscription) (hst : WF spe st) :
    WF spe (updateOne spe st s) := by
  obtain ⟨hsort, hmem⟩ := hst
  have hInnerWF : validatorMapWF spe (compute_epoch_at_slot spe s.slot)
      ((lookupKV (compute_epoch_at_slot spe s.slot) st.subscriptions).getD []) := by
    cases hv : lookupKV (compute_epoch_at_slot spe s.slot) st.subscriptions with
    | none => exact ⟨List.Pairwise.nil, by simp⟩
    | some m => simpa using hmem _ (lookupKV_mem hv)
  have hInner2WF := committeeMapWF_lookup spe (compute_epoch_at_slot spe s.slot)
    s.validator_index hInnerWF
  refine ⟨sorted_insertKV hsort, ?_⟩
  intro p hp
  rcases mem_insertKV hp with rfl | hp
  · refine ⟨sorted_insertKV hInnerWF.1, ?_⟩
    intro q hq
    rcases mem_insertKV hq with rfl | hq
    · refine ⟨sorted_insertKV hInner2WF.1, ?_⟩
      intro r hr
      rcases mem_insertKV hr with rfl | hr
      · exact ⟨rfl, rfl, rfl⟩
      · exact hInner2WF.2 r hr
    · exact hInnerWF.2 q hq
  · exact hmem p hp

theorem WF_update (spe : Nat) {st : BeaconCommitteeSubscriptions}
    (batch : List BeaconCommitteeSubscription) (hst : WF spe st) :
    WF spe (st.update spe batch) := by
  induction batch generalizing st with
  | nil => exact hst
  | cons x rest ih =>
    have hu : st.update spe (x :: rest) = (updateOne spe st x).update spe rest := rfl
    rw [hu]
    exact ih (WF_updateOne spe x hst)

theorem WF_discard (spe : Nat) {st : BeaconCommitteeSubscriptions} (E : Nat)
    (hst : WF spe st) : WF spe (st.discard_old_subscriptions E) := by
  obtain ⟨hsort, hmem⟩ := hst
  refine ⟨sorted_splitOffKV hsort, ?_⟩
  intro p hp
  exact hmem p (mem_splitOffKV.mp hp).1

theorem WF_empty (spe : Nat) : WF spe ⟨[]⟩ :=
  ⟨List.Pairwise.nil, by simp⟩

theorem Reachable.wf {spe : Nat} {st : BeaconCommitteeSubscriptions}
    (h : Reachable spe st) : WF spe st := by
  induction h with
  | empty => exact WF_empty spe
  | step_update st batch _ ih => exact WF_update spe batch ih
  | step_discard st epoch _ ih => exact WF_discard spe epoch ih

/-! ## The snapshot `all`: membership, ordering, eviction -/

theorem mem_committeeContent {spe e v : Nat} {m2 : ValidatorCommitteeSubscriptions}
    (hm2 : committeeMapWF spe e v m2) {s : BeaconCommitteeSubscription}
    (hs : s ∈ m2.map Prod.snd) :
    compute_epoch_at_slot spe s.slot = e ∧ s.validator_index = v := by
  rw [List.mem_map] at hs
  obtain ⟨r, hr, rfl⟩ := hs
  obtain ⟨he, hv, _⟩ := hm2.2 r hr
  exact ⟨he.symm, hv.symm⟩

theorem mem_epochContent {spe e : Nat}
    {m : List (Nat × ValidatorCommitteeSubscriptions)}
    (hm : validatorMapWF spe e m) {s : BeaconCommitteeSubscription}
    (hs : s ∈ m.flatMap fun q => q.2.map Prod.snd) :
    compute_epoch_at_slot spe s.slot = e := by
  rw [List.mem_flatMap] at hs
  obtain ⟨q, hq, hsq⟩ := hs
  exact (mem_committeeContent (hm.2 q hq) hsq).1

/-- A subscription appears in the `all` snapshot exactly when it is retained at
the map position determined by its own fields (well-formed states only). -/
theorem mem_all_retainedAt {spe : Nat} {st : BeaconCommitteeSubscriptions}
    (hst : WF spe st) (s : BeaconCommitteeSubscription) :
    s ∈ st.all ↔
      retainedAt st (compute_epoch_at_slot spe s.slot) s.validator_index
        s.committee_index = some s := by
  obtain ⟨hsort, hmem⟩ := hst
  constructor
  · intro hs
    simp only [BeaconCommitteeSubscriptions.all, List.mem_flatMap,
      List.mem_map] at hs
    obtain ⟨⟨e1, m⟩, hp, ⟨v1, m2⟩, hq, ⟨c1, sub⟩, hr, hrs⟩ := hs
    have hpWF := hmem _ hp
    have hqWF := hpWF.2 _ hq
    obtain ⟨he, hv, hc⟩ := hqWF.2 _ hr
    simp only at he hv hc hrs
    subst hrs
    have h1 : lookupKV (compute_epoch_at_slot spe sub.slot) st.subscriptions
        = some m := he ▸ mem_lookupKV hsort hp
    have h2 : lookupKV sub.validator_index m = some m2 :=
      hv ▸ mem_lookupKV hpWF.1 hq
    have h3 : lookupKV sub.committee_index m2 = some sub :=
      hc ▸ mem_lookupKV hqWF.1 hr
    simp [retainedAt, h1, h2, h3]
  · intro h
    cases h1 : lookupKV (compute_epoch_at_slot spe s.slot) st.subscriptions with
    | none => simp [retainedAt, h1] at h
    | some m =>
      cases h2 : lookupKV s.validator_index m with
      | none => simp [retainedAt, h1, h2] at h
      | some m2 =>
        simp only [retainedAt, h1, h2] at h
        simp only [BeaconCommitteeSubscriptions.all, List.mem_flatMap,
          List.mem_map]
        exact ⟨_, lookupKV_mem h1, _, lookupKV_mem h2,
          (s.committee_index, s), lookupKV_mem h, rfl⟩

theorem pairwiseFlatMap {α β : Type} (f : α → List β) (R : β → β → Prop)
    (l : List α) (hin : ∀ a ∈ l, (f a).Pairwise R)
    (hcross : l.Pairwise (fun a b => ∀ x ∈ f a, ∀ y ∈ f b, R x y)) :
    (l.flatMap f).Pairwise R := by
  induction l with
  | nil => simp
  | cons a rest ih =>
    rw [List.flatMap_cons, List.pairwise_append]
    obtain ⟨hhead, htail⟩ := List.pairwise_cons.mp hcross
    refine ⟨hin a (List.mem_cons_self _ _),
      ih (fun b hb => hin b (List.mem_cons_of_mem _ hb)) htail, ?_⟩
    intro x hx y hy
    rw [List.mem_flatMap] at hy
    obtain ⟨b, hb, hyb⟩ := hy
    exact hhead b hb x hx y hyb

/-- On well-formed states, the `all` snapshot is strictly increasing in the
`(epoch, validator_index, committee_index)` triple. -/
theorem all_pairwise {spe : Nat} {st : BeaconCommitteeSubscriptions}
    (hst : WF spe st) :
    st.all.Pairwise (fun s t => tripleLt (keyOf spe s) (keyOf spe t)) := by
  obtain ⟨hsort, hmem⟩ := hst
  refine pairwiseFlatMap _ _ _ ?_ ?_
  · intro p hp
    have hpWF := hmem p hp
    refine pairwiseFlatMap _ _ _ ?_ ?_
    · intro q hq
      have hqWF := hpWF.2 q hq
      rw [List.pairwise_map]
      refine List.Pairwise.imp_of_mem ?_ hqWF.1
      intro r1 r2 hr1 hr2 hlt
      obtain ⟨he1, hv1, hc1⟩ := hqWF.2 r1 hr1
      obtain ⟨he2, hv2, hc2⟩ := hqWF.2 r2 hr2
      simp only [tripleLt, keyOf]
      omega
    · refine List.Pairwise.imp_of_mem ?_ hpWF.1
      intro q1 q2 hq1 hq2 hlt x hx y hy
      obtain ⟨hex, hvx⟩ := mem_committeeContent (hpWF.2 q1 hq1) hx
      obtain ⟨hey, hvy⟩ := mem_committeeContent (hpWF.2 q2 hq2) hy
      simp only [tripleLt, keyOf]
      omega
  · refine List.Pairwise.imp_of_mem ?_ hsort
    intro p1 p2 hp1 hp2 hlt x hx y hy
    have hex := mem_epochContent (hmem p1 hp1) hx
    have hey := mem_epochContent (hmem p2 hp2) hy
    simp only [tripleLt, keyOf]
    omega

theorem allList_filter {spe E : Nat}
    (l : List (Nat × List (Nat × ValidatorCommitteeSubscriptions)))
    (hl : ∀ p ∈ l, validatorMapWF spe p.1 p.2) :
    (splitOffKV E l).flatMap (fun p => p.2.flatMap (fun q => q.2.map Prod.snd)) =
      (l.flatMap (fun p => p.2.flatMap (fun q => q.2.map Prod.snd))).filter
        (fun s => E ≤ compute_epoch_at_slot spe s.slot) := by
  induction l with
  | nil => rfl
  | cons p rest ih =>
    have hp := hl p (List.mem_cons_self _ _)
    have hrest := fun q hq => hl q (List.mem_cons_of_mem p hq)
    have hsplit : splitOffKV E (p :: rest) =
        if E ≤ p.1 then p :: splitOffKV E rest else splitOffKV E rest := by
      simp [splitOffKV, List.filter_cons]
    rw [hsplit, List.flatMap_cons, List.filter_append]
    by_cases hE : E ≤ p.1
    · rw [if_pos hE, List.flatMap_cons, ih hrest]
      congr 1
      symm
      rw [List.filter_eq_self]
      intro s hs
      have hse := mem_epochContent hp hs
      simp [hse, hE]
    · rw [if_neg hE, ih hrest]
      have hnil : (p.2.flatMap (fun q => q.2.map Prod.snd)).filter
          (fun s => E ≤ compute_epoch_at_slot spe s.slot) = [] := by
        rw [List.filter_eq_nil_iff]
        intro s hs
        have hse := mem_epochContent hp hs
        simp [hse]
        omega
      rw [hnil, List.nil_append]

/-- The observable effect of `discard_old_subscriptions` on the snapshot:
exactly the subscriptions of epoch at least `E` remain, in order. -/
theorem all_discard {spe : Nat} {st : BeaconCommitteeSubscriptions} (E : Nat)
    (hst : WF spe st) :
    (st.discard_old_subscriptions E).all =
      st.all.filter (fun s => E ≤ compute_epoch_at_slot spe s.slot) :=
  allList_filter st.subscriptions hst.2

theorem retainedAt_discard (st : BeaconCommitteeSubscriptions) (E e v c : Nat) :
    retainedAt (st.discard_old_subscriptions E) e v c =
      if E ≤ e then retainedAt st e v c else none := by
  show (match lookupKV e (splitOffKV E st.subscriptions) with
    | none => none
    | some m =>
      match lookupKV v m with
      | none => none
      | some m2 => lookupKV c m2) = _
  rw [lookupKV_splitOffKV]
  by_cases hE : E ≤ e
  · rw [if_pos hE, if_pos hE]
    rfl
  · rw [if_neg hE, if_neg hE]

/-! ## The supervision race: first-completion-wins -/

theorem selectFold_stable {time : RacerId → Option Nat} {r : RacerId} {t : Nat}
    (hr : time r = some t) (hothers : ∀ q, q ≠ r → time q = none)
    (racers : List RacerId) :
    racers.foldl (selectStep time) (some (t, r)) = some (t, r) := by
  induction racers with
  | nil => rfl
  | cons x rest ih =>
    by_cases hx : x = r
    · subst hx
      simp only [List.foldl_cons, selectStep, hr]
      rw [if_neg (Nat.lt_irrefl t)]
      exact ih
    · simp only [List.foldl_cons, selectStep, hothers x hx]
      exact ih

theorem selectFirstCompletion_unique {time : RacerId → Option Nat}
    {racers : List RacerId} {r : RacerId} {t : Nat}
    (hmem : r ∈ racers) (hr : time r = some t)
    (hothers : ∀ q, q ≠ r → time q = none) :
    selectFirstCompletion time racers = some (t, r) := by
  induction racers with
  | nil => simp at hmem
  | cons x rest ih =>
    by_cases hx : x = r
    · subst hx
      show rest.foldl (selectStep time) (selectStep time none x) = some (t, x)
      rw [show selectStep time none x = some (t, x) by simp [selectStep, hr]]
      exact selectFold_stable hr hothers rest
    · show rest.foldl (selectStep time) (selectStep time none x) = some (t, r)
      rw [show selectStep time none x = none by simp [selectStep, hothers x hx]]
      have : r ∈ rest := by
        rcases List.mem_cons.mp hmem with heq | hm
        · exact absurd heq.symm hx
        · exact hm
      exact ih this

theorem racer_mem_supervisorRacers (r : RacerId) : r ∈ supervisorRacers := by
  cases r <;> simp [supervisorRacers]

/-! ## The startup call sequence -/

theorem mem_payloadStatusCalls_isNotification
    {ps : List (ExecutionBlockHash × PayloadStatus)} {c : ControllerCall}
    (hc : c ∈ payloadStatusCalls ps) : isPayloadNotification c = true := by
  rw [payloadStatusCalls, List.mem_filterMap] at hc
  obtain ⟨⟨h, status⟩, _, hent⟩ := hc
  cases status <;> simp [payloadStatusCall] at hent <;>
    (subst hent; rfl)

theorem mem_blockCalls_isRequestedBlock {extra : List Block} {c : ControllerCall}
    (hc : c ∈ extra.map ControllerCall.on_requested_block) :
    isRequestedBlock c = true := by
  rw [List.mem_map] at hc
  obtain ⟨b, _, rfl⟩ := hc
  rfl

theorem notification_not_requestedBlock {c : ControllerCall}
    (h : isPayloadNotification c = true) : isRequestedBlock c = false := by
  cases c <;> simp_all [isPayloadNotification, isRequestedBlock]

theorem startupCalls_no_slot_advance
    (ps : List (ExecutionBlockHash × PayloadStatus)) (extra : List Block)
    {c : ControllerCall} (hc : c ∈ startupCalls ps extra) :
    isSlotAdvance c = false := by
  rw [startupCalls, List.mem_append] at hc
  rcases hc with hc | hc
  · have := mem_payloadStatusCalls_isNotification hc
    cases c <;> simp_all [isPayloadNotification, isSlotAdvance]
  · have := mem_blockCalls_isRequestedBlock hc
    cases c <;> simp_all [isRequestedBlock, isSlotAdvance]

/-! ## Counting notifications per hash -/

theorem count_valid_notifications
    (ps : List (ExecutionBlockHash × PayloadStatus)) (h : ExecutionBlockHash) :
    (payloadStatusCalls ps).count (.on_notified_valid_payload h)
      = ps.count (h, PayloadStatus.valid) := by
  induction ps with
  | nil => rfl
  | cons entry rest ih =>
    rcases entry with ⟨h1, status⟩
    cases status with
    | valid =>
      rw [show payloadStatusCalls ((h1, PayloadStatus.valid) :: rest)
          = ControllerCall.on_notified_valid_payload h1 :: payloadStatusCalls rest
          from rfl]
      rw [List.count_cons, List.count_cons, ih]
      by_cases hh : h1 = h
      · subst hh
        simp
      · simp [hh]
    | invalid =>
      rw [show payloadStatusCalls ((h1, PayloadStatus.invalid) :: rest)
          = ControllerCall.on_notified_invalid_payload h1 :: payloadStatusCalls rest
          from rfl]
      rw [List.count_cons, List.count_cons, ih]
      simp
    | optimistic =>
      rw [show payloadStatusCalls ((h1, PayloadStatus.optimistic) :: rest)
          = payloadStatusCalls rest from rfl]
      rw [List.count_cons, ih]
      simp

theorem count_invalid_notifications
    (ps : List (ExecutionBlockHash × PayloadStatus)) (h : ExecutionBlockHash) :
    (payloadStatusCalls ps).count (.on_notified_invalid_payload h)
      = ps.count (h, PayloadStatus.invalid) := by
  induction ps with
  | nil => rfl
  | cons entry rest ih =>
    rcases entry with ⟨h1, status⟩
    cases status with
    | valid =>
      rw [show payloadStatusCalls ((h1, PayloadStatus.valid) :: rest)
          = ControllerCall.on_notified_valid_payload h1 :: payloadStatusCalls rest
          from rfl]
      rw [List.count_cons, List.count_cons, ih]
      simp
    | invalid =>
      rw [show payloadStatusCalls ((h1, PayloadStatus.invalid) :: rest)
          = ControllerCall.on_notified_invalid_payload h1 :: payloadStatusCalls rest
          from rfl]
      rw [List.count_cons, List.count_cons, ih]
      by_cases hh : h1 = h
      · subst hh
        simp
      · simp [hh]
    | optimistic =>
      rw [show payloadStatusCalls ((h1, PayloadStatus.optimistic) :: rest)
          = payloadStatusCalls rest from rfl]
      rw [List.count_cons, ih]
      simp

theorem notifs_for_hash_length
    (ps : List (ExecutionBlockHash × PayloadStatus)) (h : ExecutionBlockHash) :
    ((payloadStatusCalls ps).filter (fun c => notifiesHash h c)).length
      = (ps.filter (fun entry => entry.1 = h ∧
          entry.2 ≠ PayloadStatus.optimistic)).length := by
  induction ps with
  | nil => rfl
  | cons entry rest ih =>
    rcases entry with ⟨h1, status⟩
    cases status with
    | valid =>
      rw [show payloadStatusCalls ((h1, PayloadStatus.valid) :: rest)
          = ControllerCall.on_notified_valid_payload h1 :: payloadStatusCalls rest
          from rfl]
      rw [List.filter_cons, List.filter_cons]
      by_cases hh : h1 = h
      · subst hh
        rw [if_pos (by simp [notifiesHash]), if_pos (by simp)]
        simp [ih]
      · rw [if_neg (by simp [notifiesHash, hh]), if_neg (by simp [hh])]
        exact ih
    | invalid =>
      rw [show payloadStatusCalls ((h1, PayloadStatus.invalid) :: rest)
          = ControllerCall.on_notified_invalid_payload h1 :: payloadStatusCalls rest
          from rfl]
      rw [List.filter_cons, List.filter_cons]
      by_cases hh : h1 = h
      · subst hh
        rw [if_pos (by simp [notifiesHash]), if_pos (by simp)]
        simp [ih]
      · rw [if_neg (by simp [notifiesHash, hh]), if_neg (by simp [hh])]
        exact ih
    | optimistic =>
      rw [show payloadStatusCalls ((h1, PayloadStatus.optimistic) :: rest)
          = payloadStatusCalls rest from rfl]
      rw [List.filter_cons, if_neg (by simp)]
      exact ih

theorem blockCalls_filter_notifiesHash (extra : List Block)
    (h : ExecutionBlockHash) :
    (extra.map ControllerCall.on_requested_block).filter
      (fun c => notifiesHash h c) = [] := by
  rw [List.filter_eq_nil_iff]
  intro c hc
  rw [List.mem_map] at hc
  obtain ⟨b, _, rfl⟩ := hc
  simp [notifiesHash]

/-! ## The claims -/

/-- C1: in the program order of the startup sequence of `try_run_case`, every
payload-validity notification produced from the configured payload statuses is
delivered to the controller before any block from `extra_blocks` is submitted
via `on_requested_block`: whenever position `i` of the call sequence is a block
submission and position `j` is a payload-status notification, `j < i`. -/
theorem c1_notifications_before_blocks
    (ps : List (ExecutionBlockHash × PayloadStatus)) (extra : List Block)
    (i j : Nat) (ci cj : ControllerCall)
    (hi : (startupCalls ps extra)[i]? = some ci)
    (hj : (startupCalls ps extra)[j]? = some cj)
    (hci : isRequestedBlock ci = true)
    (hcj : isPayloadNotification cj = true) :
    j < i := by
  have hj_lt : j < (payloadStatusCalls ps).length := by
    by_contra hge
    push_neg at hge
    rw [startupCalls, List.getElem?_append_right hge] at hj
    have hmem := List.getElem?_mem hj
    have h1 := mem_blockCalls_isRequestedBlock hmem
    have h2 := notification_not_requestedBlock hcj
    rw [h2] at h1
    exact Bool.noConfusion h1
  have hi_ge : (payloadStatusCalls ps).length ≤ i := by
    by_contra hlt
    push_neg at hlt
    rw [startupCalls, List.getElem?_append, if_pos hlt] at hi
    have hmem := List.getElem?_mem hi
    have h1 := mem_payloadStatusCalls_isNotification hmem
    have h2 := notification_not_requestedBlock h1
    rw [hci] at h2
    exact Bool.noConfusion h2
  omega

/-- C1 witness: with one `Valid` payload status and one extra block, the block
submission sits at index 1 and the notification at index 0, and indeed
`0 < 1`. -/
theorem c1_witness :
    (startupCalls [(1, PayloadStatus.valid)] [⟨5, 0⟩])[1]?
        = some (ControllerCall.on_requested_block ⟨5, 0⟩) ∧
    (startupCalls [(1, PayloadStatus.valid)] [⟨5, 0⟩])[0]?
        = some (ControllerCall.on_notified_valid_payload 1) ∧
    (0 : Nat) < 1 :=
  ⟨rfl, rfl, c1_notifications_before_blocks [(1, PayloadStatus.valid)] [⟨5, 0⟩]
    1 0 _ _ rfl rfl rfl rfl⟩

/-- C5 counterexample: `format_sources` on an `InvalidBody` whose underlying
failure is the two-level cause chain `cause1 → cause2` does not render as
`"cause1: cause2"`: the `sources` iterator yields `self` first, so the render
starts with the error's own display message. -/
theorem c5_counterexample :
    Error.format_sources
        (.invalidBody .request "/eth/v1/node/health"
          (.link "cause1" (.leaf "cause2")))
      = "failed to read request body for /eth/v1/node/health: cause1: cause2" ∧
    Error.format_sources
        (.invalidBody .request "/eth/v1/node/health"
          (.link "cause1" (.leaf "cause2")))
      ≠ "cause1: cause2" := by
  exact ⟨rfl, by decide⟩

/-- C5 (amended): the display form renders the causal chain joined by the
separator `": "` until the chain is exhausted, starting with the error's own
display message; for a two-level underlying cause chain it renders exactly as
`"failed to read <direction> body for <uri>: cause1: cause2"`. -/
theorem c5_format_sources_chain (d : Direction) (u c1 c2 : String)
    (src : ErrorChain) :
    Error.format_sources (.invalidBody d u (.link c1 (.leaf c2)))
      = ("failed to read " ++ d.display ++ " body for " ++ u) ++ ": "
        ++ (c1 ++ ": " ++ c2) ∧
    Error.format_sources (.invalidBody d u src)
      = Error.displayMessage (.invalidBody d u src) ++ ": "
        ++ joinSources src.messages := by
  refine ⟨rfl, ?_⟩
  cases src <;> rfl

/-- C6: the error-to-status mapping is a total function on the `Error` variant
type: every error value — in particular every `InvalidBody`, regardless of its
`uri`, `direction` or cause — maps to exactly 400 (Bad Request), and the
response produced by `into_response` carries that status. -/
theorem c6_status_code_total (e : Error) :
    e.status_code = 400 ∧ e.into_response.status = 400 := by
  cases e
  exact ⟨rfl, rfl⟩

/-- C8: the tick passed to `Controller::new` is the block-proposal tick derived
from the last block of `extra_blocks` when that list is non-empty, and from the
anchor block when it is empty; and the startup sequence never issues the
slot-advance command `on_slot`. -/
theorem c8_startup_tick (ps : List (ExecutionBlockHash × PayloadStatus))
    (extra_blocks : List Block) (anchor_block : Block) :
    (∀ b, extra_blocks.getLast? = some b →
      startupTick extra_blocks anchor_block = Tick.block_proposal b) ∧
    (extra_blocks = [] →
      startupTick extra_blocks anchor_block = Tick.block_proposal anchor_block) ∧
    (∀ c ∈ startupCalls ps extra_blocks, isSlotAdvance c = false) := by
  refine ⟨?_, ?_, ?_⟩
  · intro b hb
    rw [startupTick, hb]
    rfl
  · intro hnil
    subst hnil
    rfl
  · intro c hc
    exact startupCalls_no_slot_advance ps extra_blocks hc

/-- C8 witness: evaluated with two extra blocks (tick of the last one), with no
extra blocks (tick of the anchor), and on a concrete startup call. -/
theorem c8_witness :
    ([⟨3, 0⟩, ⟨7, 1⟩] : List Block).getLast? = some ⟨7, 1⟩ ∧
    startupTick [⟨3, 0⟩, ⟨7, 1⟩] ⟨0, 0⟩ = Tick.block_proposal ⟨7, 1⟩ ∧
    startupTick ([] : List Block) ⟨0, 0⟩ = Tick.block_proposal ⟨0, 0⟩ ∧
    isSlotAdvance (ControllerCall.on_requested_block ⟨3, 0⟩) = false :=
  ⟨rfl,
   (c8_startup_tick [] [⟨3, 0⟩, ⟨7, 1⟩] ⟨0, 0⟩).1 ⟨7, 1⟩ rfl,
   (c8_startup_tick [] [] ⟨0, 0⟩).2.1 rfl,
   (c8_startup_tick [(5, PayloadStatus.valid)] [⟨3, 0⟩] ⟨0, 0⟩).2.2
     (ControllerCall.on_requested_block ⟨3, 0⟩) (by decide)⟩

/-- C9: first-completion-wins supervision — the supervisor races all eight
long-running components (the scripted request sequence `submit_requests` is
just another racer), and when one racer resolves at time `t` while all the
others are designed to run indefinitely (never resolve), the race returns
exactly that racer's `ServiceOutcome` at time `t`, without waiting on the
remaining tasks.  The `futures::select_biased!` semantics are modelled from the
spec (see `selectFirstCompletion`). -/
theorem c9_first_completion_wins {α : Type} (time : RacerId → Option Nat)
    (outcome : RacerId → α) (r : RacerId) (t : Nat)
    (hr : time r = some t) (hothers : ∀ q, q ≠ r → time q = none) :
    selectFirstCompletion time supervisorRacers = some (t, r) ∧
    superviseOutcome time outcome = some (outcome r) ∧
    (∀ q : RacerId, q ∈ supervisorRacers) ∧
    RacerId.submitRequests ∈ supervisorRacers := by
  have hsel := selectFirstCompletion_unique (racer_mem_supervisorRacers r) hr
    hothers
  refine ⟨hsel, ?_, racer_mem_supervisorRacers,
    racer_mem_supervisorRacers _⟩
  rw [superviseOutcome, hsel]
  rfl

/-- C9 witness: the validator task fails immediately (time 0) while every other
component runs forever; the race resolves with the validator's outcome. -/
theorem c9_witness :
    (fun q => if q = RacerId.validatorTask then some 0 else none)
        RacerId.validatorTask = some 0 ∧
    selectFirstCompletion
        (fun q => if q = RacerId.validatorTask then some 0 else none)
        supervisorRacers = some (0, RacerId.validatorTask) ∧
    superviseOutcome
        (fun q => if q = RacerId.validatorTask then some 0 else none)
        (fun _ => "validator failed") = some "validator failed" := by
  have h := c9_first_completion_wins
    (fun q => if q = RacerId.validatorTask then some 0 else none)
    (fun _ => "validator failed") RacerId.validatorTask 0 (by simp)
    (fun q hq => by simp [hq])
  exact ⟨by simp, h.1, h.2.1⟩

/-- C10: at startup, a configured payload status tagged `Optimistic` is
silently dropped — an `Optimistic` entry produces no controller call, `Valid`
and `Invalid` entries each produce exactly one corresponding notification (so
the notifications for a hash are counted exactly by its non-`Optimistic`
entries), and when every configured entry for a hash is `Optimistic`, no
notification of any kind is delivered for that hash. -/
theorem c10_optimistic_dropped
    (ps : List (ExecutionBlockHash × PayloadStatus)) (extra : List Block)
    (h : ExecutionBlockHash) :
    (∀ entry ∈ ps, entry.2 = PayloadStatus.optimistic →
      payloadStatusCall entry = none) ∧
    (payloadStatusCalls ps).count (.on_notified_valid_payload h)
      = ps.count (h, PayloadStatus.valid) ∧
    (payloadStatusCalls ps).count (.on_notified_invalid_payload h)
      = ps.count (h, PayloadStatus.invalid) ∧
    ((startupCalls ps extra).filter (fun c => notifiesHash h c)).length
      = (ps.filter (fun entry => entry.1 = h ∧
          entry.2 ≠ PayloadStatus.optimistic)).length ∧
    ((∀ status, (h, status) ∈ ps → status = PayloadStatus.optimistic) →
      ∀ c ∈ startupCalls ps extra, notifiesHash h c = false) := by
  refine ⟨?_, count_valid_notifications ps h, count_invalid_notifications ps h,
    ?_, ?_⟩
  · intro entry _ he
    rcases entry with ⟨h1, status⟩
    simp only at he
    subst he
    rfl
  · rw [startupCalls, List.filter_append, blockCalls_filter_notifiesHash,
      List.length_append, List.length_nil]
    rw [notifs_for_hash_length]
    omega
  · intro hopt c hc
    rw [startupCalls, List.mem_append] at hc
    rcases hc with hc | hc
    · rw [payloadStatusCalls, List.mem_filterMap] at hc
      obtain ⟨⟨h1, status⟩, hmem, hcall⟩ := hc
      cases status with
      | valid =>
        simp only [payloadStatusCall] at hcall
        obtain rfl := Option.some.inj hcall
        by_cases hh : h1 = h
        · subst hh
          exact absurd (hopt PayloadStatus.valid hmem) (by simp)
        · simp [notifiesHash, hh]
      | invalid =>
        simp only [payloadStatusCall] at hcall
        obtain rfl := Option.some.inj hcall
        by_cases hh : h1 = h
        · subst hh
          exact absurd (hopt PayloadStatus.invalid hmem) (by simp)
        · simp [notifiesHash, hh]
      | optimistic => simp [payloadStatusCall] at hcall
    · rw [List.mem_map] at hc
      obtain ⟨b, _, rfl⟩ := hc
      rfl

/-- C10 witness: with statuses `[(5, Optimistic), (7, Valid)]`, the
`Optimistic` entry produces no call and no notification for hash 5 exists. -/
theorem c10_witness :
    payloadStatusCall (5, PayloadStatus.optimistic) = none ∧
    notifiesHash 5 (ControllerCall.on_notified_valid_payload 7) = false := by
  have h := c10_optimistic_dropped
    [(5, PayloadStatus.optimistic), (7, PayloadStatus.valid)] [] 5
  refine ⟨h.1 (5, PayloadStatus.optimistic) (by decide) rfl, ?_⟩
  refine h.2.2.2.2 ?_ (ControllerCall.on_notified_valid_payload 7) (by decide)
  intro status hs
  simp at hs
  exact hs

/-- C7: frame property of `update` — for every key `(epoch, validator_index,
committee_index)` not written by the batch, the retained subscription (or its
absence) is unchanged; and `update` never removes an entry (a position that was
occupied stays occupied). -/
theorem c7_update_frame (spe : Nat) (st : BeaconCommitteeSubscriptions)
    (batch : List BeaconCommitteeSubscription) (e v c : Nat) :
    ((∀ s ∈ batch, keyOf spe s ≠ (e, v, c)) →
      retainedAt (st.update spe batch) e v c = retainedAt st e v c) ∧
    (∀ s0, retainedAt st e v c = some s0 →
      ∃ s1, retainedAt (st.update spe batch) e v c = some s1) := by
  constructor
  · intro hnw
    rw [retainedAt_update, lastWrite_eq_none spe _ hnw]
  · intro s0 h0
    rw [retainedAt_update]
    cases hlw : lastWrite spe (e, v, c) batch with
    | some s => exact ⟨s, rfl⟩
    | none => exact ⟨s0, h0⟩

/-- C7 witness: an update writing key `(2, 3, 4)` leaves position `(1, 1, 2)`
untouched. -/
theorem c7_witness :
    (∀ s ∈ [(⟨16, 3, 4, false⟩ : BeaconCommitteeSubscription)],
      keyOf 8 s ≠ ((1 : Nat), (1 : Nat), (2 : Nat))) ∧
    retainedAt (((⟨[]⟩ : BeaconCommitteeSubscriptions).update 8
        [⟨8, 1, 2, true⟩]).update 8 [⟨16, 3, 4, false⟩]) 1 1 2
      = retainedAt ((⟨[]⟩ : BeaconCommitteeSubscriptions).update 8
        [⟨8, 1, 2, true⟩]) 1 1 2 :=
  ⟨by decide,
   (c7_update_frame 8 ((⟨[]⟩ : BeaconCommitteeSubscriptions).update 8
      [⟨8, 1, 2, true⟩]) [⟨16, 3, 4, false⟩] 1 1 2).1 (by decide)⟩

/-- C2: overwrite law of the subscription tracker — `update` over concatenated
batches equals sequential updates (so "across batches" reduces to one batch),
and for two subscriptions `s1`, `s2` submitted in that order anywhere in a
batch with the same `(epoch, validator_index, committee_index)` key, with no
later write to that key, the tracker retains exactly `s2` at the key:
a subsequent `all()` contains `s2` and (when they differ) not `s1`. -/
theorem c2_overwrite_law (spe : Nat) (st : BeaconCommitteeSubscriptions)
    (l1 l2 l3 : List BeaconCommitteeSubscription)
    (s1 s2 : BeaconCommitteeSubscription)
    (hreach : Reachable spe st)
    (hkey : keyOf spe s1 = keyOf spe s2)
    (hl3 : ∀ x ∈ l3, keyOf spe x ≠ keyOf spe s2) :
    (∀ b1 b2 : List BeaconCommitteeSubscription,
      st.update spe (b1 ++ b2) = (st.update spe b1).update spe b2) ∧
    retainedAt (st.update spe (l1 ++ s1 :: (l2 ++ s2 :: l3)))
        (compute_epoch_at_slot spe s2.slot) s2.validator_index
        s2.committee_index = some s2 ∧
    s2 ∈ (st.update spe (l1 ++ s1 :: (l2 ++ s2 :: l3))).all ∧
    (s1 ≠ s2 → s1 ∉ (st.update spe (l1 ++ s1 :: (l2 ++ s2 :: l3))).all) := by
  have hlast : lastWrite spe
      (compute_epoch_at_slot spe s2.slot, s2.validator_index, s2.committee_index)
      (l1 ++ s1 :: (l2 ++ s2 :: l3)) = some s2 := by
    rw [lastWrite_append, lastWrite_cons, lastWrite_append, lastWrite_cons,
      lastWrite_eq_none spe _ (by
        intro x hx
        have := hl3 x hx
        simpa [keyOf] using this)]
    simp [keyOf]
  have hb : retainedAt (st.update spe (l1 ++ s1 :: (l2 ++ s2 :: l3)))
      (compute_epoch_at_slot spe s2.slot) s2.validator_index
      s2.committee_index = some s2 := by
    rw [retainedAt_update, hlast]
  have hWF := WF_update spe (l1 ++ s1 :: (l2 ++ s2 :: l3)) hreach.wf
  refine ⟨?_, hb, ?_, ?_⟩
  · intro b1 b2
    simp [BeaconCommitteeSubscriptions.update, List.foldl_append]
  · exact (mem_all_retainedAt hWF s2).mpr hb
  · intro hne hmem
    have h1 := (mem_all_retainedAt hWF s1).mp hmem
    simp only [keyOf, Prod.mk.injEq] at hkey
    obtain ⟨he, hv, hc⟩ := hkey
    rw [he, hv, hc] at h1
    rw [hb] at h1
    exact hne (Option.some.inj h1).symm

/-- C2 witness: the spec's concrete scenario — epoch 2 (slot 16, 8 slots per
epoch), validator 7, committee 2, aggregator `true` overwritten by `false`. -/
theorem c2_witness :
    keyOf 8 (⟨16, 7, 2, true⟩ : BeaconCommitteeSubscription)
      = keyOf 8 (⟨16, 7, 2, false⟩ : BeaconCommitteeSubscription) ∧
    retainedAt ((⟨[]⟩ : BeaconCommitteeSubscriptions).update 8
        ([] ++ ⟨16, 7, 2, true⟩ :: ([] ++ ⟨16, 7, 2, false⟩ :: [])))
        (compute_epoch_at_slot 8 16) 7 2
      = some ⟨16, 7, 2, false⟩ ∧
    (⟨16, 7, 2, true⟩ : BeaconCommitteeSubscription) ∉
      ((⟨[]⟩ : BeaconCommitteeSubscriptions).update 8
        ([] ++ ⟨16, 7, 2, true⟩ :: ([] ++ ⟨16, 7, 2, false⟩ :: []))).all := by
  have h := c2_overwrite_law 8 ⟨[]⟩ [] [] [] ⟨16, 7, 2, true⟩ ⟨16, 7, 2, false⟩
    Reachable.empty (by decide) (by intro x hx; simp at hx)
  exact ⟨by decide, h.2.1, h.2.2.2 (by decide)⟩

/-- C3: eviction characterization — after `discard_old_subscriptions E` the
snapshot is exactly the previously retained subscriptions of epoch at least
`E` (in order); retained positions of epoch at least `E` are unchanged and
positions below `E` are empty; when `E` is at or below every retained epoch
the call is a no-op on the snapshot, and when `E` is above every retained
epoch the tracker is left empty. -/
theorem c3_eviction (spe : Nat) (st : BeaconCommitteeSubscriptions) (E : Nat)
    (hreach : Reachable spe st) :
    (st.discard_old_subscriptions E).all
        = st.all.filter (fun s => E ≤ compute_epoch_at_slot spe s.slot) ∧
    (∀ s ∈ (st.discard_old_subscriptions E).all,
      E ≤ compute_epoch_at_slot spe s.slot) ∧
    (∀ e v c, retainedAt (st.discard_old_subscriptions E) e v c
        = if E ≤ e then retainedAt st e v c else none) ∧
    ((∀ s ∈ st.all, E ≤ compute_epoch_at_slot spe s.slot) →
      (st.discard_old_subscriptions E).all = st.all) ∧
    ((∀ s ∈ st.all, compute_epoch_at_slot spe s.slot < E) →
      (st.discard_old_subscriptions E).all = []) := by
  have hWF := hreach.wf
  have ha := all_discard E hWF
  refine ⟨ha, ?_, ?_, ?_, ?_⟩
  · intro s hs
    rw [ha, List.mem_filter] at hs
    simpa using hs.2
  · intro e v c
    exact retainedAt_discard st E e v c
  · intro hall
    rw [ha, List.filter_eq_self]
    intro s hs
    simpa using hall s hs
  · intro hall
    rw [ha, List.filter_eq_nil_iff]
    intro s hs
    have hlt := hall s hs
    simp
    omega

/-- C3 witness: one subscription of epoch 1; discarding at epoch 2 filters the
snapshot and empties position `(1, 1, 2)`. -/
theorem c3_witness :
    ((((⟨[]⟩ : BeaconCommitteeSubscriptions).update 8
        [⟨8, 1, 2, true⟩]).discard_old_subscriptions 2).all
      = ((((⟨[]⟩ : BeaconCommitteeSubscriptions).update 8
        [⟨8, 1, 2, true⟩]).all).filter
          (fun s => 2 ≤ compute_epoch_at_slot 8 s.slot))) ∧
    retainedAt (((⟨[]⟩ : BeaconCommitteeSubscriptions).update 8
        [⟨8, 1, 2, true⟩]).discard_old_subscriptions 2) 1 1 2
      = if 2 ≤ 1 then
          retainedAt ((⟨[]⟩ : BeaconCommitteeSubscriptions).update 8
            [⟨8, 1, 2, true⟩]) 1 1 2
        else none := by
  have h := c3_eviction 8 _ 2
    (Reachable.step_update _ [⟨8, 1, 2, true⟩] Reachable.empty)
  exact ⟨h.1, h.2.2.1 1 1 2⟩

/-- C4: `all()` is a snapshot of every currently retained subscription —
membership coincides with the retained map positions — produced in strictly
increasing `(epoch, validator_index, committee_index)` order (epoch ascending,
then validator, then committee); being a pure function of the state, the
snapshot is deterministic and fresh on each call. -/
theorem c4_all_sorted (spe : Nat) (st : BeaconCommitteeSubscriptions)
    (hreach : Reachable spe st) :
    st.all.Pairwise (fun s t => tripleLt (keyOf spe s) (keyOf spe t)) ∧
    (∀ s, s ∈ st.all ↔
      retainedAt st (compute_epoch_at_slot spe s.slot) s.validator_index
        s.committee_index = some s) := by
  have hWF := hreach.wf
  exact ⟨all_pairwise hWF, fun s => mem_all_retainedAt hWF s⟩

/-- C4 witness: a two-subscription state (epochs 3 and 1) listed in strictly
increasing triple order. -/
theorem c4_witness :
    (((⟨[]⟩ : BeaconCommitteeSubscriptions).update 8
        [⟨24, 0, 5, false⟩, ⟨8, 1, 2, true⟩]).all).Pairwise
      (fun s t => tripleLt (keyOf 8 s) (keyOf 8 t)) ∧
    ((⟨8, 1, 2, true⟩ : BeaconCommitteeSubscription) ∈
      ((⟨[]⟩ : BeaconCommitteeSubscriptions).update 8
        [⟨24, 0, 5, false⟩, ⟨8, 1, 2, true⟩]).all ↔
      retainedAt ((⟨[]⟩ : BeaconCommitteeSubscriptions).update 8
        [⟨24, 0, 5, false⟩, ⟨8, 1, 2, true⟩]) (compute_epoch_at_slot 8 8) 1 2
        = some ⟨8, 1, 2, true⟩) := by
  have h := c4_all_sorted 8 _
    (Reachable.step_update _ [⟨24, 0, 5, false⟩, ⟨8, 1, 2, true⟩]
      Reachable.empty)
  exact ⟨h.1, h.2 ⟨8, 1, 2, true⟩⟩

end Grandine
